import Mathlib

/-! # fast-dhash: verification of the pixel-reduction and fingerprint pipeline

Shallow embedding of `src/src/lib.rs`.  Byte buffers are `List ℕ` (each entry
one byte value), the `usize`/`u32`/`u8` arithmetic is carried out over `ℕ`
(debug semantics: an arithmetic overflow is itself a fatal failure, and no
overflow occurs in the ranges exercised by the claims), and the `f64`
accumulators of `grid_from_rgb` / `grid_from_grayscale` are modelled by exact
rational arithmetic over `ℚ` (idealised exact semantics of the floating-point
operations, with the literal constants `0.299`, `0.587`, `0.114` read as the
rationals they denote).  The fork/join row parallelism of `thread::scope` is
deterministic — worker `y` computes exactly row `y` of the grid from the
shared read-only buffer and the rows are assembled after the join — so the
grid is embedded as the pure function of the row and column indices that the
joined computation produces.  A panic of `Dhash::new` is modelled by `none`.
-/

namespace FastDhash

/-- A byte read `bytes[i]`; reads outside the buffer give `0` (the in-bounds
obligation of the `get_unchecked` fast path is proved separately). -/
def byteAt (bytes : List ℕ) (i : ℕ) : ℕ := bytes.getD i 0

/-- The byte offset `let i = (image_y * width + image_x) * channel_count`
computed in both reduction paths of `src/src/lib.rs`. -/
def pixelIndex (width channelCount iy ix : ℕ) : ℕ :=
  (iy * width + ix) * channelCount

/-- The double pixel loop of one grid cell: the sum of
`bytes[pixelIndex + off]` over `image_x ∈ [x*cell_width, x*cell_width + cell_width)`
(outer loop) and `image_y ∈ [y*cell_height, y*cell_height + cell_height)`
(inner loop), as accumulated by one of the `f64` accumulator variables. -/
def cellByteSum (bytes : List ℕ)
    (width cellWidth cellHeight channelCount y x off : ℕ) : ℚ :=
  ∑ ix ∈ Finset.Ico (x * cellWidth) (x * cellWidth + cellWidth),
    ∑ iy ∈ Finset.Ico (y * cellHeight) (y * cellHeight + cellHeight),
      (byteAt bytes (pixelIndex width channelCount iy ix + off) : ℚ)

/-- Cell `(y, x)` of `grid_from_rgb`: the accumulators `rs`, `gs`, `bs` sum
the bytes at offsets `i`, `i + 1`, `i + 2`, and the cell receives
`rs * 0.299 + gs * 0.587 + bs * 0.114`. -/
def gridFromRgb (bytes : List ℕ)
    (width cellWidth cellHeight channelCount y x : ℕ) : ℚ :=
  cellByteSum bytes width cellWidth cellHeight channelCount y x 0 * (299 / 1000)
    + cellByteSum bytes width cellWidth cellHeight channelCount y x 1 * (587 / 1000)
    + cellByteSum bytes width cellWidth cellHeight channelCount y x 2 * (114 / 1000)

/-- Cell `(y, x)` of `grid_from_grayscale`: the accumulator `luma` sums the
raw bytes at offset `i` and the cell receives that sum unweighted. -/
def gridFromGrayscale (bytes : List ℕ)
    (width cellWidth cellHeight channelCount y x : ℕ) : ℚ :=
  cellByteSum bytes width cellWidth cellHeight channelCount y x 0

/-- The intensity grid computed inside `Dhash::new`:
`cell_width = width / 9`, `cell_height = height / 8`, and the dispatch is
`grid_from_rgb` when `channel_count >= 3`, else `grid_from_grayscale`. -/
def dhashGrid (bytes : List ℕ) (width height channelCount y x : ℕ) : ℚ :=
  if 3 ≤ channelCount then
    gridFromRgb bytes width (width / 9) (height / 8) channelCount y x
  else
    gridFromGrayscale bytes width (width / 9) (height / 8) channelCount y x

/-- The bit array of `Dhash::new`: `bits[y * 8 + x] = grid[y][x] > grid[y][x + 1]`
for `y, x ∈ 0..8`, written as a function of the flat index `i = y * 8 + x`. -/
def dhashBits (bytes : List ℕ) (width height channelCount i : ℕ) : Bool :=
  dhashGrid bytes width height channelCount (i / 8) (i % 8) >
    dhashGrid bytes width height channelCount (i / 8) (i % 8 + 1)

/-- The packed hash of `Dhash::new`: `hash += 1 << i` for every set bit `i`. -/
def dhashHash (bytes : List ℕ) (width height channelCount : ℕ) : ℕ :=
  ∑ i ∈ Finset.range 64,
    if dhashBits bytes width height channelCount i then 2 ^ i else 0

/-- `Dhash::new(bytes, width, height, channel_count)`: panics (`none`) when
`width * height * channel_count != bytes.len()`, otherwise returns the hash. -/
def dhashNew (bytes : List ℕ) (width height channelCount : ℕ) : Option ℕ :=
  if width * height * channelCount ≠ bytes.length then none
  else some (dhashHash bytes width height channelCount)

/-- Model of `u64::count_ones`: the number of set bits among the 64 bits of
the value. -/
def countOnes (n : ℕ) : ℕ :=
  ∑ i ∈ Finset.range 64, if n.testBit i then 1 else 0

/-- `Dhash::hamming_distance`: `(self.hash ^ other.hash).count_ones()`. -/
def hammingDistance (a b : ℕ) : ℕ := countOnes (a ^^^ b)

/-- `impl PartialEq for Dhash`: `self.hamming_distance(other) < 11`. -/
def dhashEqBool (a b : ℕ) : Bool := hammingDistance a b < 11

end FastDhash

namespace FastDhash

/-! ## Claim C3: the length precondition -/

/-- **C3.** `Dhash::new` fails fatally iff the buffer length differs from
`width * height * channel_count`; the check depends only on the declared
geometry and the actual length, never on the data, and a matching length is
never rejected (no truncation or padding path exists).  The concrete
mismatch of the claim — geometry 10×10×3 with 50 bytes — is rejected. -/
theorem c3_new_panics_iff_length_mismatch :
    (∀ (bytes : List ℕ) (width height channelCount : ℕ),
      dhashNew bytes width height channelCount = none ↔
        width * height * channelCount ≠ bytes.length) ∧
    dhashNew (List.replicate 50 0) 10 10 3 = none := by
  constructor
  · intro bytes width height channelCount
    by_cases h : width * height * channelCount = bytes.length <;>
      simp [dhashNew, h]
  · decide

/-! ## Claim C5: Hamming distance and similarity equality -/

/-- **C5.** `hamming_distance` is the popcount of the XOR of the two raw
hashes, its value is at most 64, and the similarity equality holds exactly
when that distance is strictly below 11. -/
theorem c5_hamming_distance_and_similarity :
    ∀ a b : ℕ,
      hammingDistance a b = countOnes (a ^^^ b) ∧
      hammingDistance a b ≤ 64 ∧
      (dhashEqBool a b = true ↔ hammingDistance a b < 11) := by
  intro a b
  refine ⟨rfl, ?_, ?_⟩
  · unfold hammingDistance countOnes
    calc (∑ i ∈ Finset.range 64, if (a ^^^ b).testBit i then 1 else 0)
        ≤ ∑ _i ∈ Finset.range 64, 1 := by
          apply Finset.sum_le_sum
          intro i _
          split <;> omega
      _ = 64 := by simp
  · rw [dhashEqBool]
    exact decide_eq_true_iff

/-! ## Claim C7: the similarity relation is not transitive -/

/-- Popcount is subadditive over XOR: the bits set in `x ^^^ y` are set in
`x` or in `y`. -/
theorem countOnes_xor_le (x y : ℕ) :
    countOnes (x ^^^ y) ≤ countOnes x + countOnes y := by
  unfold countOnes
  rw [← Finset.sum_add_distrib]
  apply Finset.sum_le_sum
  intro i _
  rw [Nat.testBit_xor]
  cases x.testBit i <;> cases y.testBit i
  all_goals simp

/-- **C7, counterexample.**  No three fingerprints have pairwise Hamming
distances `5`, `5` and `15`: the Hamming distance satisfies the triangle
inequality, so the distance between `a` and `c` is at most `5 + 5 = 10`. -/
theorem c7_counterexample :
    ¬ ∃ a b c : ℕ, a < 2 ^ 64 ∧ b < 2 ^ 64 ∧ c < 2 ^ 64 ∧
      hammingDistance a b = 5 ∧ hammingDistance b c = 5 ∧
      hammingDistance a c = 15 ∧
      dhashEqBool a b = true ∧ dhashEqBool b c = true ∧
      dhashEqBool a c = false := by
  rintro ⟨a, b, c, -, -, -, hab, hbc, hac, -, -, -⟩
  have hx : a ^^^ c = (a ^^^ b) ^^^ (b ^^^ c) := by
    rw [Nat.xor_assoc, Nat.xor_cancel_left]
  have hle := countOnes_xor_le (a ^^^ b) (b ^^^ c)
  rw [← hx] at hle
  rw [hammingDistance] at hab hbc hac
  omega

/-- **C7, amended.**  There are fingerprints `a`, `b`, `c` with
`hamming_distance(a, b) = 10`, `hamming_distance(b, c) = 9` and
`hamming_distance(a, c) = 15`, so that `a == b` and `b == c` hold under the
similarity equality while `a != c`: the similarity relation is not
transitive. -/
theorem c7_nontransitivity_fixture :
    ∃ a b c : ℕ, a < 2 ^ 64 ∧ b < 2 ^ 64 ∧ c < 2 ^ 64 ∧
      hammingDistance a b = 10 ∧ hammingDistance b c = 9 ∧
      hammingDistance a c = 15 ∧
      dhashEqBool a b = true ∧ dhashEqBool b c = true ∧
      dhashEqBool a c = false :=
  ⟨0, 1023, 130303, by decide, by decide, by decide, by decide, by decide,
    by decide, by decide, by decide, by decide⟩

/-! ## Claim C2: bit layout of the packed hash -/

/-- Little-endian packing of a bit list, the loop
`if bit { hash += 1 << i }` read off back to front. -/
def packBits : List Bool → ℕ
  | [] => 0
  | b :: rest => (if b then 1 else 0) + 2 * packBits rest

theorem packBits_append_singleton (l : List Bool) (b : Bool) :
    packBits (l ++ [b]) = packBits l + (if b then 2 ^ l.length else 0) := by
  induction l with
  | nil => cases b <;> simp [packBits]
  | cons a t ih =>
    cases b
    all_goals simp [packBits, ih, pow_succ]
    all_goals ring

theorem sum_range_ite_pow_eq_packBits (f : ℕ → Bool) (n : ℕ) :
    (∑ i ∈ Finset.range n, if f i then 2 ^ i else 0) =
      packBits ((List.range n).map f) := by
  induction n with
  | zero => simp [packBits]
  | succ n ih =>
    rw [Finset.sum_range_succ, ih, List.range_succ, List.map_append]
    simp [packBits_append_singleton]

theorem packBits_testBit (l : List Bool) : ∀ i : ℕ,
    (packBits l).testBit i = l.getD i false := by
  induction l with
  | nil => intro i; simp [packBits]
  | cons b t ih =>
    intro i
    cases i with
    | zero =>
      rw [Nat.testBit_zero]
      cases b <;> simp [packBits]
    | succ i =>
      rw [Nat.testBit_succ]
      have h2 : packBits (b :: t) / 2 = packBits t := by
        cases b
        all_goals simp [packBits]
        all_goals omega
      rw [h2, ih i]
      rfl

theorem getD_map_range (f : ℕ → Bool) {n i : ℕ} (h : i < n) :
    ((List.range n).map f).getD i false = f i := by
  rw [List.getD_eq_getElem?_getD, List.getElem?_map, List.getElem?_range h]
  rfl

/-- **C2.**  For `row, col < 8`, bit `row * 8 + col` of the hash produced by
`Dhash::new` is set exactly when `grid[row][col] > grid[row][col + 1]` (a tie
gives an unset bit); bits are packed least-significant first, row-major,
column-ascending, each set bit `i` contributing `1 << i`. -/
theorem c2_hash_bit_iff_cell_gt_right_neighbor (bytes : List ℕ)
    (width height channelCount row col : ℕ)
    (hrow : row < 8) (hcol : col < 8) :
    ((dhashHash bytes width height channelCount).testBit (row * 8 + col) = true ↔
      dhashGrid bytes width height channelCount row col >
        dhashGrid bytes width height channelCount row (col + 1)) := by
  have hi : row * 8 + col < 64 := by omega
  rw [dhashHash, sum_range_ite_pow_eq_packBits, packBits_testBit,
    getD_map_range _ hi]
  have h1 : (row * 8 + col) / 8 = row := by omega
  have h2 : (row * 8 + col) % 8 = col := by omega
  rw [dhashBits, h1, h2]
  exact decide_eq_true_iff

/-- **C2, witness.**  The bit characterisation instantiated at a concrete
input. -/
theorem c2_witness :
    ((dhashHash [] 0 0 0).testBit (0 * 8 + 0) = true ↔
      dhashGrid [] 0 0 0 0 0 > dhashGrid [] 0 0 0 0 (0 + 1)) :=
  c2_hash_bit_iff_cell_gt_right_neighbor [] 0 0 0 0 0 (by decide) (by decide)

/-! ## Claims C1 and C9: cell values as per-pixel intensity sums

The next definitions follow the wording of the specification (refinement
side); the theorems compare them with the embedded source functions. -/

/-- ITU-R BT.601 luma of an RGB triple, `r*0.299 + g*0.587 + b*0.114`,
as the specification's Luma Converter states it. -/
def luma (r g b : ℚ) : ℚ :=
  r * (299 / 1000) + g * (587 / 1000) + b * (114 / 1000)

/-- Intensity of the pixel whose first byte sits at offset `i`, as the claim
states it: the luma of the first three channel bytes when
`channel_count >= 3`, the raw first byte otherwise. -/
def specPixelIntensity (bytes : List ℕ) (channelCount i : ℕ) : ℚ :=
  if 3 ≤ channelCount then
    luma (byteAt bytes i) (byteAt bytes (i + 1)) (byteAt bytes (i + 2))
  else (byteAt bytes i : ℚ)

/-- Claim-side cell value: the sum of the intensities of every source pixel
whose column index lies in `[col*cell_width, (col+1)*cell_width)` and whose
row index lies in `[row*cell_height, (row+1)*cell_height)`, the byte offset
of a pixel being `(pixel_row * width + pixel_col) * channel_count`, with
`cell_width = width / 9` and `cell_height = height / 8`. -/
def specCell (bytes : List ℕ) (width height channelCount row col : ℕ) : ℚ :=
  ∑ pixelCol ∈ Finset.Ico (col * (width / 9)) ((col + 1) * (width / 9)),
    ∑ pixelRow ∈ Finset.Ico (row * (height / 8)) ((row + 1) * (height / 8)),
      specPixelIntensity bytes channelCount
        (pixelIndex width channelCount pixelRow pixelCol)

/-- **C1.**  For every buffer meeting the length precondition and every cell
of the grid, the intensity computed by `Dhash::new` is exactly the sum of the
per-pixel intensities over the cell's pixel rectangle. -/
theorem c1_grid_cell_is_sum_of_intensities (bytes : List ℕ)
    (width height channelCount : ℕ)
    (_hlen : bytes.length = width * height * channelCount)
    (row col : ℕ) (_hrow : row < 8) (_hcol : col < 9) :
    dhashGrid bytes width height channelCount row col =
      specCell bytes width height channelCount row col := by
  have hw : (col + 1) * (width / 9) = col * (width / 9) + width / 9 := by ring
  have hh : (row + 1) * (height / 8) = row * (height / 8) + height / 8 := by
    ring
  by_cases hc : 3 ≤ channelCount
  · simp only [dhashGrid, specCell, specPixelIntensity, if_pos hc, gridFromRgb,
      cellByteSum, luma, hw, hh, add_zero, Finset.sum_mul,
      Finset.sum_add_distrib]
  · simp only [dhashGrid, specCell, specPixelIntensity, if_neg hc,
      gridFromGrayscale, cellByteSum, hw, hh, add_zero]

/-- **C1, witness.**  The cell equality instantiated on a concrete 9×8
single-channel buffer. -/
theorem c1_witness :
    (List.replicate 72 (7 : ℕ)).length = 9 * 8 * 1 ∧
    dhashGrid (List.replicate 72 (7 : ℕ)) 9 8 1 0 0 =
      specCell (List.replicate 72 (7 : ℕ)) 9 8 1 0 0 :=
  ⟨by decide,
    c1_grid_cell_is_sum_of_intensities (List.replicate 72 7) 9 8 1 (by decide)
      0 0 (by decide) (by decide)⟩

/-- **C9.**  With at least three channels every pixel contributes its BT.601
luma `r*0.299 + g*0.587 + b*0.114` to its cell; with fewer than three the raw
single byte is used directly, with no conversion. -/
theorem c9_luma_applied_per_pixel (bytes : List ℕ)
    (width height channelCount row col : ℕ) :
    (3 ≤ channelCount →
      dhashGrid bytes width height channelCount row col =
        ∑ ix ∈ Finset.Ico (col * (width / 9)) (col * (width / 9) + width / 9),
          ∑ iy ∈ Finset.Ico (row * (height / 8))
              (row * (height / 8) + height / 8),
            luma (byteAt bytes (pixelIndex width channelCount iy ix))
              (byteAt bytes (pixelIndex width channelCount iy ix + 1))
              (byteAt bytes (pixelIndex width channelCount iy ix + 2))) ∧
    (channelCount < 3 →
      dhashGrid bytes width height channelCount row col =
        ∑ ix ∈ Finset.Ico (col * (width / 9)) (col * (width / 9) + width / 9),
          ∑ iy ∈ Finset.Ico (row * (height / 8))
              (row * (height / 8) + height / 8),
            (byteAt bytes (pixelIndex width channelCount iy ix) : ℚ)) := by
  constructor
  · intro hc
    simp only [dhashGrid, if_pos hc, gridFromRgb, cellByteSum, luma, add_zero,
      Finset.sum_mul, Finset.sum_add_distrib]
  · intro hc
    have hc3 : ¬ 3 ≤ channelCount := by omega
    simp only [dhashGrid, if_neg hc3, gridFromGrayscale, cellByteSum, add_zero]

/-- **C9, witness.**  Both branches instantiated at concrete channel
counts. -/
theorem c9_witness :
    (3 ≤ 3 ∧
      dhashGrid [] 0 0 3 0 0 =
        ∑ ix ∈ Finset.Ico (0 * (0 / 9)) (0 * (0 / 9) + 0 / 9),
          ∑ iy ∈ Finset.Ico (0 * (0 / 8)) (0 * (0 / 8) + 0 / 8),
            luma (byteAt [] (pixelIndex 0 3 iy ix))
              (byteAt [] (pixelIndex 0 3 iy ix + 1))
              (byteAt [] (pixelIndex 0 3 iy ix + 2))) ∧
    (1 < 3 ∧
      dhashGrid [] 0 0 1 0 0 =
        ∑ ix ∈ Finset.Ico (0 * (0 / 9)) (0 * (0 / 9) + 0 / 9),
          ∑ iy ∈ Finset.Ico (0 * (0 / 8)) (0 * (0 / 8) + 0 / 8),
            (byteAt [] (pixelIndex 0 1 iy ix) : ℚ)) :=
  ⟨⟨by decide, (c9_luma_applied_per_pixel [] 0 0 3 0 0).1 (by decide)⟩,
    ⟨by decide, (c9_luma_applied_per_pixel [] 0 0 1 0 0).2 (by decide)⟩⟩

/-! ## Claim C8: degenerate geometry -/

/-- **C8.**  When `width < 9` or `height < 8` the corresponding cell
dimension truncates to `0`, every affected pixel range is empty, the cells
stay at intensity `0`, and `Dhash::new` still returns normally on any buffer
meeting the length precondition (there is no division by zero: only the
constant divisors 9 and 8 occur). -/
theorem c8_degenerate_geometry_is_harmless (bytes : List ℕ)
    (width height channelCount : ℕ) (hdeg : width < 9 ∨ height < 8) :
    ((width < 9 → width / 9 = 0) ∧ (height < 8 → height / 8 = 0)) ∧
    (∀ row col : ℕ, dhashGrid bytes width height channelCount row col = 0) ∧
    (bytes.length = width * height * channelCount →
      dhashNew bytes width height channelCount =
        some (dhashHash bytes width height channelCount)) := by
  refine ⟨⟨fun h => Nat.div_eq_of_lt h, fun h => Nat.div_eq_of_lt h⟩, ?_, ?_⟩
  · intro row col
    have hz : width / 9 = 0 ∨ height / 8 = 0 := by
      rcases hdeg with h | h
      · exact Or.inl (Nat.div_eq_of_lt h)
      · exact Or.inr (Nat.div_eq_of_lt h)
    have hcell : ∀ off : ℕ,
        cellByteSum bytes width (width / 9) (height / 8) channelCount
          row col off = 0 := by
      intro off
      rcases hz with h | h <;> simp [cellByteSum, h]
    by_cases hc : 3 ≤ channelCount <;>
      simp [dhashGrid, hc, gridFromRgb, gridFromGrayscale, hcell]
  · intro hlen
    simp [dhashNew, hlen]

/-- **C8, witness.**  A 5×8 single-channel buffer: `width < 9`, all cells
are `0`, and construction succeeds. -/
theorem c8_witness :
    (5 < 9 ∨ 8 < 8) ∧
    ((5 < 9 → 5 / 9 = 0) ∧ (8 < 8 → 8 / 8 = 0)) ∧
    (∀ row col : ℕ, dhashGrid (List.replicate 40 (3 : ℕ)) 5 8 1 row col = 0) ∧
    ((List.replicate 40 (3 : ℕ)).length = 5 * 8 * 1 →
      dhashNew (List.replicate 40 (3 : ℕ)) 5 8 1 =
        some (dhashHash (List.replicate 40 (3 : ℕ)) 5 8 1)) :=
  ⟨Or.inl (by decide),
    c8_degenerate_geometry_is_harmless (List.replicate 40 3) 5 8 1
      (Or.inl (by decide))⟩

/-! ## Claim C4: the unchecked reads stay in bounds -/

/-- **C4, counterexample.**  The claim fails at `channel_count = 0`: the
empty buffer with declared geometry 9×8×0 meets the length precondition
(`0 = 9 * 8 * 0`), the pixel ranges of cell `(0, 0)` are non-empty
(`cell_width = cell_height = 1`), yet the single-channel path's read offset
`(0 * 9 + 0) * 0 = 0` is not below the buffer length `0`. -/
theorem c4_counterexample :
    ¬ (∀ (bytes : List ℕ) (width height channelCount : ℕ),
        bytes.length = width * height * channelCount →
        ∀ y x ix iy : ℕ, y < 8 → x < 9 →
          ix ∈ Finset.Ico (x * (width / 9)) (x * (width / 9) + width / 9) →
          iy ∈ Finset.Ico (y * (height / 8)) (y * (height / 8) + height / 8) →
          (channelCount < 3 →
            pixelIndex width channelCount iy ix < bytes.length) ∧
          (3 ≤ channelCount →
            pixelIndex width channelCount iy ix + 2 < bytes.length)) := by
  intro hclaim
  have h := (hclaim [] 9 8 0 (by decide) 0 0 0 0 (by decide) (by decide)
    (by decide) (by decide)).1 (by decide)
  simp [pixelIndex] at h

/-- **C4, amended.**  Under the length precondition and for a positive
channel count, every unchecked byte access of both reduction paths is in
bounds: the single-channel path reads `i` and the multi-channel path
(`channel_count >= 3`) reads `i`, `i + 1`, `i + 2`, all below
`bytes.len()`. -/
theorem c4_unchecked_reads_in_bounds (bytes : List ℕ)
    (width height channelCount : ℕ)
    (hlen : bytes.length = width * height * channelCount)
    (hcc : 1 ≤ channelCount)
    (y x ix iy : ℕ) (hy : y < 8) (hx : x < 9)
    (hix : ix ∈ Finset.Ico (x * (width / 9)) (x * (width / 9) + width / 9))
    (hiy : iy ∈ Finset.Ico (y * (height / 8))
      (y * (height / 8) + height / 8)) :
    (channelCount < 3 →
      pixelIndex width channelCount iy ix < bytes.length) ∧
    (3 ≤ channelCount →
      pixelIndex width channelCount iy ix + 2 < bytes.length) := by
  rw [Finset.mem_Ico] at hix hiy
  have hxw : ix < width := by
    have h1 : ix < (x + 1) * (width / 9) := by rw [add_one_mul]; omega
    have h2 : (x + 1) * (width / 9) ≤ 9 * (width / 9) :=
      Nat.mul_le_mul_right _ (by omega)
    have h3 : 9 * (width / 9) ≤ width := by
      rw [mul_comm]; exact Nat.div_mul_le_self width 9
    omega
  have hyh : iy < height := by
    have h1 : iy < (y + 1) * (height / 8) := by rw [add_one_mul]; omega
    have h2 : (y + 1) * (height / 8) ≤ 8 * (height / 8) :=
      Nat.mul_le_mul_right _ (by omega)
    have h3 : 8 * (height / 8) ≤ height := by
      rw [mul_comm]; exact Nat.div_mul_le_self height 8
    omega
  have key : ∀ k : ℕ, k < channelCount →
      pixelIndex width channelCount iy ix + k < bytes.length := by
    intro k hk
    rw [pixelIndex, hlen]
    calc (iy * width + ix) * channelCount + k
        < (iy * width + ix + 1) * channelCount := by
          rw [add_one_mul]; omega
      _ ≤ height * width * channelCount := by
          apply Nat.mul_le_mul_right
          have h1 : iy * width + ix + 1 ≤ (iy + 1) * width := by
            rw [add_one_mul]; omega
          have h2 : (iy + 1) * width ≤ height * width :=
            Nat.mul_le_mul_right _ (by omega)
          omega
      _ = width * height * channelCount := by ring
  refine ⟨fun _ => ?_, fun h3 => key 2 (by omega)⟩
  have h0 := key 0 (by omega)
  simpa using h0

/-- **C4, witness.**  The bounds instantiated on a concrete 9×8 RGB
buffer. -/
theorem c4_witness :
    (List.replicate 216 (0 : ℕ)).length = 9 * 8 * 3 ∧
    ((3 < 3 → pixelIndex 9 3 0 0 < (List.replicate 216 (0 : ℕ)).length) ∧
     (3 ≤ 3 → pixelIndex 9 3 0 0 + 2 < (List.replicate 216 (0 : ℕ)).length)) :=
  ⟨by rw [List.length_replicate],
    c4_unchecked_reads_in_bounds (List.replicate 216 0) 9 8 3
      (by rw [List.length_replicate])
      (by decide) 0 0 0 0 (by decide) (by decide) (by decide) (by decide)⟩

/-! ## Hex text serialisation: `Display` and `FromStr` (claims C6 and C10) -/

/-- A lowercase hex digit character as emitted by the `{:016x}` format:
`0`–`9` map to `'0'`–`'9'` and `10`–`15` to `'a'`–`'f'`. -/
def hexDigitChar (d : ℕ) : Char :=
  if d < 10 then Char.ofNat (48 + d) else Char.ofNat (87 + d)

/-- Base-16 digits of a number, most significant first (at least one
digit). -/
def natToHexDigits (n : ℕ) : List ℕ :=
  if _h : n < 16 then [n]
  else natToHexDigits (n / 16) ++ [n % 16]
decreasing_by exact Nat.div_lt_self (by omega) (by omega)

/-- `impl fmt::Display for Dhash`, i.e. `write!(f, "{:016x}", &self.hash)`:
the lowercase hex digits of the value, left-padded with `'0'` to at least 16
characters. -/
def renderHash (hash : ℕ) : List Char :=
  List.replicate (16 - (natToHexDigits hash).length) '0'
    ++ (natToHexDigits hash).map hexDigitChar

/-- Rust's `char::to_digit(16)`: decimal digits, lowercase `a`–`f` and
uppercase `A`–`F`. -/
def charToDigit16 (c : Char) : Option ℕ :=
  if 48 ≤ c.toNat ∧ c.toNat ≤ 57 then some (c.toNat - 48)
  else if 97 ≤ c.toNat ∧ c.toNat ≤ 102 then some (c.toNat - 87)
  else if 65 ≤ c.toNat ∧ c.toNat ≤ 70 then some (c.toNat - 55)
  else none

/-- The error kinds of `core::num::ParseIntError` reachable from
`u64::from_str_radix(s, 16)`. -/
inductive ParseIntErrorKind where
  | empty
  | invalidDigit
  | posOverflow
deriving DecidableEq

/-- Digit-accumulation loop of `u64::from_str_radix(s, 16)`: every character
must be a base-16 digit and every checked multiply-and-add must stay below
`2^64`, else the loop stops with an error. -/
def fromStrRadix16Core : List Char → ℕ → Except ParseIntErrorKind ℕ
  | [], acc => .ok acc
  | c :: rest, acc =>
    match charToDigit16 c with
    | none => .error .invalidDigit
    | some d =>
      if acc * 16 + d < 2 ^ 64 then fromStrRadix16Core rest (acc * 16 + d)
      else .error .posOverflow

/-- `impl str::FromStr for Dhash` via `u64::from_str_radix(s, 16)`: an empty
string is `Empty`; a lone `'+'` is `InvalidDigit`; a leading `'+'` is
skipped; a `'-'` on the unsigned target is `InvalidDigit`; then the digit
loop runs on what remains. -/
def fromStrRadix16 (s : List Char) : Except ParseIntErrorKind ℕ :=
  match s with
  | [] => .error .empty
  | c :: rest =>
    if c = '+' then
      if rest = [] then .error .invalidDigit else fromStrRadix16Core rest 0
    else if c = '-' then .error .invalidDigit
    else fromStrRadix16Core (c :: rest) 0

/-- Value of a base-16 digit list, most significant digit first, on top of
an accumulator. -/
def digitsVal (acc : ℕ) (ds : List ℕ) : ℕ :=
  ds.foldl (fun a d => a * 16 + d) acc

/-- Whether `char::to_digit(16)` accepts the character. -/
def isHexDigit (c : Char) : Bool := (charToDigit16 c).isSome

/-- The lowercase hexadecimal alphabet produced by rendering: a decimal
digit or one of the letters `a` to `f`. -/
def isLowerHexChar (c : Char) : Bool :=
  (48 ≤ c.toNat && c.toNat ≤ 57) || (97 ≤ c.toNat && c.toNat ≤ 102)

/-- The characters `u64::from_str_radix` feeds to the digit loop: everything
after a leading `'+'`, the whole string otherwise. -/
def digitsPart (s : List Char) : List Char :=
  match s with
  | [] => []
  | c :: _rest => if c = '+' then s.tail else s

/-- The number denoted by a string of hex digits (junk characters count
as 0; only used where every character is a digit). -/
def hexStrVal (s : List Char) : ℕ :=
  digitsVal 0 (s.map fun c => (charToDigit16 c).getD 0)

theorem digitsVal_cons (acc d : ℕ) (ds : List ℕ) :
    digitsVal acc (d :: ds) = digitsVal (acc * 16 + d) ds := rfl

theorem digitsVal_append (acc : ℕ) (l₁ l₂ : List ℕ) :
    digitsVal acc (l₁ ++ l₂) = digitsVal (digitsVal acc l₁) l₂ := by
  simp [digitsVal, List.foldl_append]

theorem le_digitsVal (ds : List ℕ) : ∀ acc : ℕ, acc ≤ digitsVal acc ds := by
  induction ds with
  | nil => intro acc; exact le_rfl
  | cons d t ih =>
    intro acc
    rw [digitsVal_cons]
    calc acc ≤ acc * 16 + d := by omega
      _ ≤ digitsVal (acc * 16 + d) t := ih _

theorem natToHexDigits_lt (n : ℕ) : ∀ d ∈ natToHexDigits n, d < 16 := by
  induction n using Nat.strong_induction_on with
  | _ n ih =>
    by_cases h : n < 16
    · rw [natToHexDigits, dif_pos h]
      intro d hd
      simp only [List.mem_singleton] at hd
      omega
    · rw [natToHexDigits, dif_neg h]
      intro d hd
      rcases List.mem_append.mp hd with hd | hd
      · exact ih (n / 16) (Nat.div_lt_self (by omega) (by omega)) d hd
      · simp only [List.mem_singleton] at hd
        subst hd
        exact Nat.mod_lt _ (by omega)

theorem natToHexDigits_length_le :
    ∀ k n : ℕ, n < 16 ^ (k + 1) → (natToHexDigits n).length ≤ k + 1 := by
  intro k
  induction k with
  | zero =>
    intro n h
    rw [natToHexDigits, dif_pos (by simpa using h)]
    simp
  | succ k ih =>
    intro n h
    by_cases h16 : n < 16
    · rw [natToHexDigits, dif_pos h16]
      simp
    · rw [natToHexDigits, dif_neg h16]
      have hdiv : n / 16 < 16 ^ (k + 1) := by
        rw [Nat.div_lt_iff_lt_mul (by omega : 0 < 16)]
        calc n < 16 ^ (k + 2) := h
          _ = 16 ^ (k + 1) * 16 := by ring
      have hlen := ih (n / 16) hdiv
      simp only [List.length_append, List.length_cons, List.length_nil]
      omega

theorem digitsVal_natToHexDigits (n : ℕ) :
    digitsVal 0 (natToHexDigits n) = n := by
  induction n using Nat.strong_induction_on with
  | _ n ih =>
    by_cases h : n < 16
    · rw [natToHexDigits, dif_pos h]
      simp [digitsVal]
    · rw [natToHexDigits, dif_neg h]
      rw [digitsVal_append, ih (n / 16) (Nat.div_lt_self (by omega) (by omega))]
      show (n / 16) * 16 + n % 16 = n
      omega

theorem charToDigit16_hexDigitChar {d : ℕ} (h : d < 16) :
    charToDigit16 (hexDigitChar d) = some d := by
  have hall : ∀ e : Fin 16, charToDigit16 (hexDigitChar e.val) = some e.val := by
    decide
  exact hall ⟨d, h⟩

theorem isLowerHexChar_hexDigitChar {d : ℕ} (h : d < 16) :
    isLowerHexChar (hexDigitChar d) = true := by
  have hall : ∀ e : Fin 16, isLowerHexChar (hexDigitChar e.val) = true := by
    decide
  exact hall ⟨d, h⟩

theorem fromStrRadix16Core_replicate_zero (l : List Char) :
    ∀ k : ℕ, fromStrRadix16Core (List.replicate k '0' ++ l) 0 =
      fromStrRadix16Core l 0 := by
  intro k
  induction k with
  | zero => rfl
  | succ k ih =>
    rw [List.replicate_succ, List.cons_append]
    have h0 : charToDigit16 '0' = some 0 := by decide
    simp only [fromStrRadix16Core, h0]
    rw [if_pos (by norm_num)]
    simpa using ih

theorem fromStrRadix16Core_map_hexDigitChar (ds : List ℕ) : ∀ acc : ℕ,
    (∀ d ∈ ds, d < 16) → digitsVal acc ds < 2 ^ 64 →
    fromStrRadix16Core (ds.map hexDigitChar) acc = .ok (digitsVal acc ds) := by
  induction ds with
  | nil => intro acc _ _; rfl
  | cons d t ih =>
    intro acc hd hb
    have hd16 : d < 16 := hd d (by simp)
    rw [List.map_cons]
    simp only [fromStrRadix16Core, charToDigit16_hexDigitChar hd16]
    rw [digitsVal_cons] at hb
    have hacc : acc * 16 + d < 2 ^ 64 :=
      lt_of_le_of_lt (le_digitsVal t _) hb
    rw [if_pos hacc, digitsVal_cons]
    exact ih (acc * 16 + d) (fun e he => hd e (List.mem_cons_of_mem d he)) hb

theorem fromStrRadix16Core_isOk_iff (l : List Char) : ∀ acc : ℕ,
    acc < 2 ^ 64 →
    ((fromStrRadix16Core l acc).isOk = true ↔
      ((∀ c ∈ l, isHexDigit c = true) ∧
        digitsVal acc (l.map fun c => (charToDigit16 c).getD 0) < 2 ^ 64)) := by
  induction l with
  | nil =>
    intro acc hacc
    simpa [fromStrRadix16Core, digitsVal, Except.isOk, Except.toBool] using hacc
  | cons c t ih =>
    intro acc hacc
    cases hc : charToDigit16 c with
    | none =>
      simp only [fromStrRadix16Core, hc]
      constructor
      · intro h
        simp [Except.isOk, Except.toBool] at h
      · rintro ⟨hall, -⟩
        have hhex := hall c (by simp)
        rw [isHexDigit, hc] at hhex
        simp at hhex
    | some d =>
      by_cases hov : acc * 16 + d < 2 ^ 64
      · simp only [fromStrRadix16Core, hc, if_pos hov]
        rw [ih (acc * 16 + d) hov]
        constructor
        · rintro ⟨hall, hv⟩
          refine ⟨fun e he => ?_, ?_⟩
          · rcases List.mem_cons.mp he with rfl | he'
            · rw [isHexDigit, hc]; rfl
            · exact hall e he'
          · rw [List.map_cons, digitsVal_cons, hc]
            simpa using hv
        · rintro ⟨hall, hv⟩
          refine ⟨fun e he => hall e (List.mem_cons_of_mem c he), ?_⟩
          rw [List.map_cons, digitsVal_cons, hc] at hv
          simpa using hv
      · simp only [fromStrRadix16Core, hc, if_neg hov]
        constructor
        · intro h
          simp [Except.isOk, Except.toBool] at h
        · rintro ⟨-, hv⟩
          exfalso
          rw [List.map_cons, digitsVal_cons, hc] at hv
          simp only [Option.getD_some] at hv
          have := le_digitsVal (t.map fun c => (charToDigit16 c).getD 0)
            (acc * 16 + d)
          omega

/-- **C6.**  Rendering a fingerprint yields exactly 16 lowercase hex
characters (zero-padded), and parsing that text back returns exactly the
same raw 64-bit value. -/
theorem c6_render_sixteen_lower_hex_and_roundtrip (hash : ℕ)
    (hb : hash < 2 ^ 64) :
    (renderHash hash).length = 16 ∧
    (∀ c ∈ renderHash hash, isLowerHexChar c = true) ∧
    fromStrRadix16 (renderHash hash) = .ok hash := by
  have hdiglen : (natToHexDigits hash).length ≤ 16 :=
    natToHexDigits_length_le 15 hash
      (by rw [show (16 : ℕ) ^ (15 + 1) = 2 ^ 64 by norm_num]; exact hb)
  have hlen : (renderHash hash).length = 16 := by
    rw [renderHash]
    rw [List.length_append, List.length_replicate, List.length_map]
    omega
  have hchars : ∀ c ∈ renderHash hash, isLowerHexChar c = true := by
    intro c hc
    rw [renderHash] at hc
    rcases List.mem_append.mp hc with hpad | hmap
    · rw [List.eq_of_mem_replicate hpad]
      decide
    · obtain ⟨d, hd, rfl⟩ := List.mem_map.mp hmap
      exact isLowerHexChar_hexDigitChar (natToHexDigits_lt hash d hd)
  have hcore : fromStrRadix16Core (renderHash hash) 0 = .ok hash := by
    rw [renderHash, fromStrRadix16Core_replicate_zero]
    rw [fromStrRadix16Core_map_hexDigitChar _ 0 (natToHexDigits_lt hash)
      (by rw [digitsVal_natToHexDigits]; exact hb)]
    rw [digitsVal_natToHexDigits]
  obtain ⟨c, t, hct⟩ : ∃ c t, renderHash hash = c :: t := by
    cases hr : renderHash hash with
    | nil => rw [hr] at hlen; simp at hlen
    | cons c t => exact ⟨c, t, rfl⟩
  have hclower : isLowerHexChar c = true := by
    apply hchars
    rw [hct]
    exact List.mem_cons_self c t
  have hcplus : ¬ (c = '+') := by
    intro h
    subst h
    exact absurd hclower (by decide)
  have hcminus : ¬ (c = '-') := by
    intro h
    subst h
    exact absurd hclower (by decide)
  refine ⟨hlen, hchars, ?_⟩
  rw [hct]
  simp only [fromStrRadix16]
  rw [if_neg hcplus, if_neg hcminus, ← hct]
  exact hcore

/-- **C6, witness.**  The round trip instantiated at the all-zero
fingerprint. -/
theorem c6_witness :
    (0 : ℕ) < 2 ^ 64 ∧
    ((renderHash 0).length = 16 ∧
      (∀ c ∈ renderHash 0, isLowerHexChar c = true) ∧
      fromStrRadix16 (renderHash 0) = .ok 0) :=
  ⟨by norm_num, c6_render_sixteen_lower_hex_and_roundtrip 0 (by norm_num)⟩

/-! ## Claim C10: what the parser accepts and rejects -/

theorem fromStrRadix16Core_isOk_false_iff (l : List Char) :
    (fromStrRadix16Core l 0).isOk = false ↔
      ((∃ c ∈ l, isHexDigit c = false) ∨ 2 ^ 64 ≤ hexStrVal l) := by
  have hiff := fromStrRadix16Core_isOk_iff l 0 (by norm_num)
  rw [← Bool.not_eq_true, hiff, hexStrVal]
  constructor
  · intro h
    by_cases hall : ∀ c ∈ l, isHexDigit c = true
    · right
      have hb : ¬ digitsVal 0 (l.map fun c => (charToDigit16 c).getD 0) <
          2 ^ 64 := fun hv => h ⟨hall, hv⟩
      omega
    · left
      push_neg at hall
      obtain ⟨c, hc, hfc⟩ := hall
      exact ⟨c, hc, by simpa using hfc⟩
  · rintro (⟨c, hc, hfc⟩ | hov) ⟨hall, hv⟩
    · have h1 := hall c hc
      rw [h1] at hfc
      exact absurd hfc (by decide)
    · omega

/-- **C10, counterexample.**  `"-0"` refutes the claimed failure
characterisation: the input is non-empty, every character is a hex digit or
a sign, and the denoted value `0` does not exceed `2^64 - 1`, yet
`u64::from_str_radix` rejects it (a `'-'` is an invalid digit for an
unsigned target). -/
theorem c10_counterexample :
    (fromStrRadix16 ['-', '0']).isOk = false ∧
    ¬ ((['-', '0'] : List Char) = [] ∨
        (∃ c ∈ (['-', '0'] : List Char),
          ¬ (isHexDigit c = true ∨ c = '+' ∨ c = '-')) ∨
        2 ^ 64 - 1 < hexStrVal ['0']) := by
  constructor
  · rfl
  · decide

/-- **C10, amended.**  Parsing is strictly more permissive than the set of
rendered strings: seventeen zeros parse to `0` and a leading `'+'` is
accepted; and parsing fails exactly on the empty string, a lone `'+'`, any
string starting with `'-'`, a non-hex-digit character after the optional
leading `'+'`, or a denoted value exceeding `2^64 - 1` (in particular extra
leading zeros are never an error). -/
theorem c10_parse_failure_characterisation :
    fromStrRadix16 (List.replicate 17 '0') = .ok 0 ∧
    fromStrRadix16 ['+', '1'] = .ok 1 ∧
    ∀ s : List Char,
      (fromStrRadix16 s).isOk = false ↔
        (s = [] ∨ s = ['+'] ∨ (∃ t, s = '-' :: t) ∨
          (∃ c ∈ digitsPart s, isHexDigit c = false) ∨
          2 ^ 64 ≤ hexStrVal (digitsPart s)) := by
  refine ⟨by rfl, by rfl, ?_⟩
  intro s
  cases s with
  | nil =>
    simp [fromStrRadix16, Except.isOk, Except.toBool]
  | cons c rest =>
    by_cases hplus : c = '+'
    · subst hplus
      by_cases hrest : rest = []
      · subst hrest
        simp [fromStrRadix16, Except.isOk, Except.toBool]
      · rw [fromStrRadix16, if_pos rfl, if_neg hrest]
        rw [fromStrRadix16Core_isOk_false_iff]
        have hdp : digitsPart ('+' :: rest) = rest := by
          simp [digitsPart]
        rw [hdp]
        constructor
        · intro h
          right; right; right
          exact h
        · rintro (h | h | ⟨t, ht⟩ | h | h)
          · simp at h
          · simp only [List.cons.injEq] at h
            exact absurd h.2 hrest
          · simp at ht
          · exact Or.inl h
          · exact Or.inr h
    · by_cases hminus : c = '-'
      · subst hminus
        have hne : ¬(('-' : Char) = '+') := by decide
        rw [fromStrRadix16, if_neg hne, if_pos rfl]
        constructor
        · intro _
          right; right; left
          exact ⟨rest, rfl⟩
        · intro _
          rfl
      · rw [fromStrRadix16, if_neg hplus, if_neg hminus]
        rw [fromStrRadix16Core_isOk_false_iff]
        have hdp : digitsPart (c :: rest) = c :: rest := by
          simp [digitsPart, hplus]
        rw [hdp]
        constructor
        · intro h
          right; right; right
          exact h
        · rintro (h | h | ⟨t, ht⟩ | h | h)
          · simp at h
          · simp only [List.cons.injEq] at h
            exact absurd h.1 hplus
          · simp only [List.cons.injEq] at ht
            exact absurd ht.1 hminus
          · exact Or.inl h
          · exact Or.inr h

end FastDhash
